import Mathlib

/-!
# Verification of the c33d voxel renderer core

A shallow embedding, in Lean 4, of the rendering core of the c33d server
(`server/src/{ray,buffer,texture,world}.rs`), together with theorems checking
the natural-language specification against it.

Modelling conventions:

* `f64` values are modelled by `ℚ`: every `f64` literal and intermediate of the
  traced code is a rational, and the spec's claims are about the real-number
  (exact) behaviour of the arithmetic, not about rounding.  The `1e30`
  sentinel is modelled as `10 ^ 30`.  Rust's `f64::trunc` (round toward zero)
  and `f64::fract` (`x - x.trunc()`, negative for negative `x`) are modelled
  by `rtrunc` / `rfract` below.
* The `loop` in `ray.rs::trace` is modelled with explicit fuel
  (`traceLoop fuel`): `none` means the fuel ran out, `some none` is the
  explicit no-hit value (Rust's `None`), `some (some (hit, warned))` is
  `Some(hit)` together with a flag recording whether the out-of-range-offset
  diagnostic (`warn!`) was emitted on this hit.
* The three mutable per-axis variable groups `(map, step, delta_dist,
  side_dist)` of `trace` are modelled as a function `TState : Plane → AxisSt`.
* Rust `Vec` indexing panics out of bounds (the `debug_assert!` bounds checks
  are compiled out in release builds, but `Vec` indexing itself always
  checks).  Where the tracer provably stays in bounds the lookup is modelled
  with a default (`List.getD`); in `World::set`, reached from attacker-chosen
  uploads, the panic is modelled explicitly as an `UploadError.panic` result.
* The data-parallel per-pixel loop of `ray.rs::render` writes each pixel of
  the framebuffer exactly once, from the pixel's own ray only; it is modelled
  by the per-pixel function `renderPixel`.
-/

namespace C33d

/-- Palette index, `pub type Colour = u8` in `buffer.rs`. -/

abbrev Colour := ℕ

/-- `world.rs`: the block variants. -/

inductive Block where
  | air
  | dirt
  | grass
  | stone
  | water
deriving DecidableEq

/-- `ray.rs`: which pair of cube faces a ray crossed entering a voxel. -/

inductive Plane where
  | X
  | Y
  | Z
deriving DecidableEq

/-- `ray.rs::Vec3`. -/

structure Vec3 (α : Type) where
  x : α
  y : α
  z : α

/-- The component of a `Vec3` along an axis. -/

def Vec3.comp (v : Vec3 α) : Plane → α
  | .X => v.x
  | .Y => v.y
  | .Z => v.z

/-- `ray.rs::Hit`. -/

structure Hit where
  block : Block
  side : Plane
  offset : ℚ × ℚ
deriving DecidableEq

/-- `world.rs::World`: dimensions and the linearised block array. -/

structure World where
  width : ℕ
  height : ℕ
  depth : ℕ
  blocks : List Block

/-- `World::get`: `self.blocks[x + y * self.width + z * self.height * self.width]`.
The Rust lookup panics out of bounds; the tracer only calls it at in-bounds
coordinates (where the linear index is provably within the array), so the
default value of `getD` is never what a theorem rests on. -/

def World.get (w : World) (x y z : ℕ) : Block :=
  w.blocks.getD (x + y * w.width + z * w.height * w.width) .air

/-- Rust `f64::trunc`: round toward zero. -/

def rtrunc (q : ℚ) : ℤ := if 0 ≤ q then ⌊q⌋ else -⌊-q⌋

/-- Rust `f64::fract`: `self - self.trunc()` (negative for negative input). -/

def rfract (q : ℚ) : ℚ := q - rtrunc q

/-- `ray.rs::get_dists`, returning `(map, step, delta_dist, side_dist)`.
The `match` on `direction` tests `== 0.0` first, then `< 0.0`; `1e30` is the
zero-direction sentinel. -/

def get_dists (start direction : ℚ) : ℤ × ℤ × ℚ × ℚ :=
  let step : ℤ :=
    if direction = 0 then 0
    else if direction < 0 then -1
    else 1
  let delta_dist : ℚ := if direction = 0 then 10 ^ 30 else 1 / |direction|
  let map : ℤ := rtrunc start
  let side_dist : ℚ :=
    delta_dist * (if 0 < direction then 1 - rfract start else rfract start)
  (map, step, delta_dist, side_dist)

/-- `ray.rs::outside`. -/

def outside (value min max step : ℤ) : Bool :=
  if step < 0 then value < min else value > max

/-- One axis's mutable DDA variables in `ray.rs::trace`. -/

structure AxisSt where
  map : ℤ
  step : ℤ
  deltaDist : ℚ
  sideDist : ℚ
deriving DecidableEq

/-- The three axes' DDA variables. -/

def TState := Plane → AxisSt

/-- The axis the loop body of `trace` advances: the explicit comparison
cascade of `ray.rs` lines 79-97. -/

def chooseAxis (s : TState) : Plane :=
  if (s .X).sideDist < (s .Y).sideDist then
    (if (s .X).sideDist < (s .Z).sideDist then .X else .Z)
  else
    if (s .Y).sideDist < (s .Z).sideDist then .Y else .Z

/-- Advancing one axis: `map += step; side_dist += delta_dist`. -/

def advanceAxis (a : AxisSt) : AxisSt :=
  { a with map := a.map + a.step, sideDist := a.sideDist + a.deltaDist }

/-- The state after one loop iteration's advance: only the chosen axis moves. -/

def stepState (s : TState) : TState :=
  fun p => if p = chooseAxis s then advanceAxis (s p) else s p

/-- One loop iteration's advance, as a pair (stepped side, new state). -/

def ddaStep (s : TState) : Plane × TState :=
  (chooseAxis s, stepState s)

/-- The face-offset computation of `ray.rs` lines 106-140, returning `(t, offset)`.
Each arm shadows the stepped axis's `map` with the entering-face plane
(`map + 1` when stepping negatively). -/

def face_offset (start direction : Vec3 ℚ) (s : TState) (side : Plane) : ℚ × (ℚ × ℚ) :=
  match side with
  | .Z =>
      let map_z : ℤ := if (s .Z).step < 0 then (s .Z).map + 1 else (s .Z).map
      let t : ℚ := ((map_z : ℚ) - start.z) / direction.z
      (t, (start.x + direction.x * t - ((s .X).map : ℚ),
           1 - (start.y + direction.y * t - ((s .Y).map : ℚ))))
  | .X =>
      let map_x : ℤ := if (s .X).step < 0 then (s .X).map + 1 else (s .X).map
      let t : ℚ := ((map_x : ℚ) - start.x) / direction.x
      (t, (start.z + direction.z * t - ((s .Z).map : ℚ),
           1 - (start.y + direction.y * t - ((s .Y).map : ℚ))))
  | .Y =>
      let map_y : ℤ := if (s .Y).step < 0 then (s .Y).map + 1 else (s .Y).map
      let t : ℚ := ((map_y : ℚ) - start.y) / direction.y
      (t, (start.x + direction.x * t - ((s .X).map : ℚ),
           start.z + direction.z * t - ((s .Z).map : ℚ)))

/-- The in-bounds/hit/boundary test of the loop body (`ray.rs` lines 99-171),
applied to the just-stepped state `s` and the stepped `side`:
`some (some (hit, warned))` returns a hit (`warned` records whether the
out-of-range diagnostic fired), `some none` returns no-hit, `none` continues
the loop. -/

def checkCell (world : World) (start direction : Vec3 ℚ) (side : Plane) (s : TState) :
    Option (Option (Hit × Bool)) :=
  if 0 ≤ (s .X).map ∧ (s .X).map < (world.width : ℤ) ∧
     0 ≤ (s .Y).map ∧ (s .Y).map < (world.height : ℤ) ∧
     0 ≤ (s .Z).map ∧ (s .Z).map < (world.depth : ℤ) then
    let b := world.get (s .X).map.toNat (s .Y).map.toNat (s .Z).map.toNat
    if b = .air then none
    else
      let r := face_offset start direction s side
      let warned : Bool :=
        decide (1 < r.2.1) || decide (1 < r.2.2) || decide (r.2.1 < 0) || decide (r.2.2 < 0)
      some (some (⟨b, side, r.2⟩, warned))
  else
    if outside (s .X).map 0 (world.width : ℤ) (s .X).step ||
       outside (s .Y).map 0 (world.height : ℤ) (s .Y).step ||
       outside (s .Z).map 0 (world.depth : ℤ) (s .Z).step then
      some none
    else
      none

/-- The `loop` of `ray.rs::trace`, with fuel: `none` = fuel exhausted (the
Rust loop has not returned after that many iterations). -/

def traceLoop (world : World) (start direction : Vec3 ℚ) :
    ℕ → TState → Option (Option (Hit × Bool))
  | 0, _ => none
  | n + 1, s =>
      let s' := stepState s
      match checkCell world start direction (chooseAxis s) s' with
      | some r => some r
      | none => traceLoop world start direction n s'

/-- The initial DDA state of `trace`: `get_dists` per axis. -/

def initState (start direction : Vec3 ℚ) : TState :=
  fun p =>
    let d := get_dists (start.comp p) (direction.comp p)
    ⟨d.1, d.2.1, d.2.2.1, d.2.2.2⟩

/-- `ray.rs::trace`, with fuel. -/

def trace (fuel : ℕ) (world : World) (start direction : Vec3 ℚ) :
    Option (Option (Hit × Bool)) :=
  traceLoop world start direction fuel (initState start direction)

/-- `trace` diverges on these arguments: no amount of fuel makes the loop
return. -/

def divergesAt (world : World) (start direction : Vec3 ℚ) : Prop :=
  ∀ fuel, trace fuel world start direction = none

/-- A `TState` from three explicit axis states (for concrete examples). -/

def mkState (ax ay az : AxisSt) : TState
  | .X => ax
  | .Y => ay
  | .Z => az

/-- `buffer.rs::MON_WIDTH`. -/

def MON_WIDTH : ℕ := 164 - 2

/-- `buffer.rs::MON_HEIGHT`. -/

def MON_HEIGHT : ℕ := 81 - 2

/-- `buffer.rs::BUF_WIDTH`. -/

def BUF_WIDTH : ℕ := MON_WIDTH * 2

/-- `buffer.rs::BUF_HEIGHT`. -/

def BUF_HEIGHT : ℕ := MON_HEIGHT * 3

/-- `texture.rs::DEFAULT_COLOUR`: the sky colour. -/

def DEFAULT_COLOUR : Colour := 9

/-- `texture.rs::WIDTH` (texture width; `HEIGHT` is the same). -/

def TEX_WIDTH : ℕ := 8

/-- `texture.rs::Textures`: the ten 8×8 images, each a palette-indexed pixel
vector.  Their contents come from embedded bitmap assets outside the traced
sources, so the images are left abstract here. -/

structure Textures where
  water : List Colour
  dirt_x : List Colour
  dirt_y : List Colour
  dirt_z : List Colour
  grass_x : List Colour
  grass_y : List Colour
  grass_z : List Colour
  stone_x : List Colour
  stone_y : List Colour
  stone_z : List Colour

/-- The pixel index `Textures::get_colour` computes from a hit's UV offset:
`((u * 8).floor() as usize).clamp(0, 7)` per component (Rust's float→usize
`as` cast saturates below zero, modelled by `Int.toNat`), then `x + y * 8`. -/

def Textures.sampleIdx (hit : Hit) : ℕ :=
  let x := (Int.toNat ⌊hit.offset.1 * (TEX_WIDTH : ℚ)⌋).min (TEX_WIDTH - 1)
  let y := (Int.toNat ⌊hit.offset.2 * (TEX_WIDTH : ℚ)⌋).min (TEX_WIDTH - 1)
  x + y * TEX_WIDTH

/-- `texture.rs::Textures::get_colour`.  The Rust image indexing panics out of
bounds; `Textures.sampleIdx_lt` shows the index is always within the 64-pixel
image, so `getD`'s default is never relevant for 64-pixel images. -/

def Textures.get_colour (tex : Textures) (hit : Hit) : Colour :=
  let idx := Textures.sampleIdx hit
  match hit.block, hit.side with
  | .air, _ => DEFAULT_COLOUR
  | .water, _ => tex.water.getD idx 0
  | .dirt, .X => tex.dirt_x.getD idx 0
  | .dirt, .Y => tex.dirt_y.getD idx 0
  | .dirt, .Z => tex.dirt_z.getD idx 0
  | .grass, .X => tex.grass_x.getD idx 0
  | .grass, .Y => tex.grass_y.getD idx 0
  | .grass, .Z => tex.grass_z.getD idx 0
  | .stone, .X => tex.stone_x.getD idx 0
  | .stone, .Y => tex.stone_y.getD idx 0
  | .stone, .Z => tex.stone_z.getD idx 0

/-- The per-pixel body of `ray.rs::render`: the camera-ray construction and
the sky-colour fallback.  The `rayon` per-row parallel loop writes each pixel
once, from this expression alone.  A `none` result propagates fuel exhaustion
of the modelled trace loop. -/

def renderPixel (fuel : ℕ) (world : World) (textures : Textures)
    (offset position : Vec3 ℚ) (x y : ℕ) : Option Colour :=
  let ox : ℚ := (1 - (x : ℚ) / (BUF_WIDTH : ℚ)) * 8
  let oy : ℚ := (1 - (y : ℚ) / (BUF_HEIGHT : ℚ)) * 6
  (trace fuel world ⟨ox + offset.x, oy + offset.y, offset.z⟩
      ⟨ox - position.x, oy - position.y, -position.z⟩).map
    (fun r =>
      match r with
      | none => DEFAULT_COLOUR
      | some (hit, _) => textures.get_colour hit)

def exWorld : World := ⟨2, 1, 1, [.stone, .stone]⟩

def exStart : Vec3 ℚ := ⟨-1/2, 1/2, 1/2⟩

def exDir : Vec3 ℚ := ⟨1, 0, 0⟩

def exInit0 : TState := mkState ⟨0, 1, 1, 3/2⟩
    ⟨0, 0, 10 ^ 30, 5 * 10 ^ 29⟩ ⟨0, 0, 10 ^ 30, 5 * 10 ^ 29⟩

def exStepped : TState := mkState ⟨1, 1, 1, 5/2⟩
    ⟨0, 0, 10 ^ 30, 5 * 10 ^ 29⟩ ⟨0, 0, 10 ^ 30, 5 * 10 ^ 29⟩

def exHit : Hit := ⟨.stone, .X, (1/2, 1/2)⟩

/-- An arbitrary concrete texture table (contents irrelevant). -/

def exTex : Textures := ⟨[], [], [], [], [], [], [], [], [], []⟩

/-- The exclusive upper bound the loop compares each axis's map against. -/

def axisBound (world : World) : Plane → ℤ
  | .X => world.width
  | .Y => world.height
  | .Z => world.depth

/-- Remaining advances of axis `A` before its map passes the world boundary
in the direction of its step (then `outside` fires and the loop returns). -/

def remSteps (world : World) (A : Plane) (s : TState) : ℤ :=
  if (s A).step < 0 then (s A).map + 1 else axisBound world A + 1 - (s A).map

/-- An upper bound on axis `A`'s sideDist over any run in which the loop has
not yet returned: invariant under advancing `A` while `A` stays in play. -/

def tBound (world : World) (A : Plane) (s : TState) : ℚ :=
  (s A).sideDist + ((remSteps world A s).toNat : ℚ) * (s A).deltaDist

/-- How many more times axis `b` can be the chosen (minimal-sideDist) axis
while axis `A` is still in play: each choice adds `deltaDist b` to
`sideDist b`, which can be chosen only while it is at most `tBound`. -/

def gPot (world : World) (A : Plane) (s : TState) (b : Plane) : ℕ :=
  (⌊(tBound world A s - (s b).sideDist) / (s b).deltaDist⌋ + 1).toNat

/-- The two axes other than the given one. -/

def othersOf : Plane → List Plane
  | .X => [.Y, .Z]
  | .Y => [.X, .Z]
  | .Z => [.X, .Y]

/-- Termination measure for the trace loop, relative to a focus axis `A`
whose direction component is nonzero. -/

def ddaMeasure (world : World) (A : Plane) (s : TState) : ℕ :=
  (remSteps world A s).toNat + ((othersOf A).map (gPot world A s)).sum

/-- A 1×1×1 world holding a single Air block. -/

def exAirWorld : World := ⟨1, 1, 1, [.air]⟩

def exCenter : Vec3 ℚ := ⟨1/2, 1/2, 1/2⟩

def exZeroDir : Vec3 ℚ := ⟨0, 0, 0⟩

/-- The six pixels of one 2×3 tile, in the encoder's dx-then-dy loop order.
A tile is the function sending in-tile coordinates (dx, dy) to the pixel's
palette index. -/

def tilePixels (p : ℕ → ℕ → Colour) : List Colour :=
  [p 0 0, p 0 1, p 0 2, p 1 0, p 1 1, p 1 2]

/-- One step of the tally loop of `buffer.rs` lines 63-73: bump the colour's
total, incrementing `unique` when it was unseen.  The `totals` 16-array is
modelled as a function (the encoder only reads indices written by pixels). -/

def tallyStep (acc : (ℕ → ℕ) × ℕ) (c : ℕ) : (ℕ → ℕ) × ℕ :=
  ((fun i => if i = c then acc.1 c + 1 else acc.1 i),
   if acc.1 c = 0 then acc.2 + 1 else acc.2)

/-- The tile's `(totals, unique)` after the tally loop. -/

def tally (p : ℕ → ℕ → Colour) : (ℕ → ℕ) × ℕ :=
  (tilePixels p).foldl tallyStep ((fun _ => 0), 0)

def tileTotals (p : ℕ → ℕ → Colour) (c : ℕ) : ℕ := (tally p).1 c

def tileUnique (p : ℕ → ℕ → Colour) : ℕ := (tally p).2

/-- The order `colours.sort_by_key(|k| -totals[*k as usize])` sorts by:
count descending, then (because Rust's `sort_by_key` is stable and the array
being sorted is `[0, 1, …, 15]` in increasing order) palette index
ascending.  A stable sort's output is the unique permutation sorted by this
total order, so sorting by `rankLE` reproduces it exactly. -/

def rankLE (p : ℕ → ℕ → Colour) (a b : ℕ) : Prop :=
  tileTotals p b < tileTotals p a ∨ (tileTotals p a = tileTotals p b ∧ a ≤ b)

instance (p : ℕ → ℕ → Colour) : DecidableRel (rankLE p) := fun a b => by
  unfold rankLE
  infer_instance

instance (p : ℕ → ℕ → Colour) : IsTotal ℕ (rankLE p) := ⟨by
  intro a b
  unfold rankLE
  omega⟩

instance (p : ℕ → ℕ → Colour) : IsTrans ℕ (rankLE p) := ⟨by
  intro a b c h1 h2
  unfold rankLE at h1 h2 ⊢
  omega⟩

/-- The sorted colour array `colours` of `buffer.rs` line 86-87. -/

def tileRanked (p : ℕ → ℕ → Colour) : List ℕ :=
  List.insertionSort (rankLE p) (List.range 16)

/-- `bg = colours[0]`. -/

def tileBg (p : ℕ → ℕ → Colour) : Colour := (tileRanked p).getD 0 0

/-- `fg = colours[1]`. -/

def tileFg (p : ℕ → ℕ → Colour) : Colour := (tileRanked p).getD 1 0

/-- The single-colour argmax scan of `buffer.rs` lines 76-82 (case A). -/

def bestColour (p : ℕ → ℕ → Colour) : Colour :=
  ((List.range 16).foldl
    (fun (cb : ℕ × ℕ) i => if tileTotals p i > cb.2 then (i, tileTotals p i) else cb)
    (0, 0)).1

/-- The glyph code of `buffer.rs` lines 94-105: bit `2·dy + dx` is set when
the cell differs from `last`; cell (1, 2) is skipped; 128 is the teletext
base.  The Rust `|=` writes are disjoint bit sets, modelled as a sum. -/

def tileCode (p : ℕ → ℕ → Colour) (last : Colour) : ℕ :=
  128 + (if p 0 0 ≠ last then 1 else 0) + (if p 1 0 ≠ last then 2 else 0) +
    (if p 0 1 ≠ last then 4 else 0) + (if p 1 1 ≠ last then 8 else 0) +
    (if p 0 2 ≠ last then 16 else 0)

/-- One tile of `Buffer::draw` (`buffer.rs` lines 62-112): the emitted
(glyph, fg, bg) triple. -/

def encodeTile (p : ℕ → ℕ → Colour) : ℕ × Colour × Colour :=
  if tileUnique p = 1 then
    (32, 0, bestColour p)
  else
    let bg := tileBg p
    let fg := tileFg p
    let last := if p 1 2 = fg then fg else bg
    let code := tileCode p last
    if last = bg then (code, fg, bg) else (code, bg, fg)

/-- Decoding one cell of an emitted (glyph, fg, bg) triple: a set bit shows
the fg colour, a clear bit the bg colour. -/

def decodeTile (t : ℕ × Colour × Colour) (dx dy : ℕ) : Colour :=
  if Nat.testBit t.1 (2 * dy + dx) then t.2.1 else t.2.2

/-- The example tile for the C4/C5 witnesses: left column colour 0, right
column colour 1. -/

def exTile : ℕ → ℕ → Colour := fun dx _ => dx

/-- `buffer.rs::HEX_COLOURS`: the bytes of "0123456789abcdef". -/

def HEX_COLOURS : List ℕ := [48, 49, 50, 51, 52, 53, 54, 55, 56, 57, 97, 98, 99, 100, 101, 102]

/-- `buffer.rs::to_hex`.  The Rust indexing panics for colour ≥ 16 (and a
debug assertion fires); palette colours are < 16, so the `getD` default is
never relevant there. -/

def to_hex (colour : Colour) : ℕ := HEX_COLOURS.getD colour 0

/-- In-place assignment `v[i] = x` on a list.  All of `draw`'s indices are
provably in bounds, where this agrees with Rust's (panicking) indexed
assignment. -/

def setAt {α : Type} : List α → ℕ → α → List α
  | [], _, _ => []
  | _ :: xs, 0, x => x :: xs
  | x :: xs, n + 1, y => x :: setAt xs n y

/-- `Buffer::get`: the framebuffer (an arbitrary pixel array here) read at
`x + y * BUF_WIDTH`. -/

def bufGet (buf : ℕ → Colour) (x y : ℕ) : Colour := buf (x + y * BUF_WIDTH)

/-- The 2×3 tile of the framebuffer whose top-left pixel is
(mon_x · 2, mon_y · 3). -/

def tileAt (buf : ℕ → Colour) (mx my : ℕ) : ℕ → ℕ → Colour :=
  fun dx dy => bufGet buf (mx * 2 + dx) (my * 3 + dy)

/-- The three output writes for one monitor cell (`buffer.rs` lines 114-116),
with the cell's (glyph, fg, bg) triple from `encodeTile`. -/

def writeTile (buf : ℕ → Colour) (my mx : ℕ) (v : List ℕ) : List ℕ :=
  setAt (setAt (setAt v (my * MON_WIDTH * 3 + mx) (encodeTile (tileAt buf mx my)).1)
      (my * MON_WIDTH * 3 + MON_WIDTH + mx) (to_hex (encodeTile (tileAt buf mx my)).2.1))
    (my * MON_WIDTH * 3 + 2 * MON_WIDTH + mx) (to_hex (encodeTile (tileAt buf mx my)).2.2)

/-- The inner `mon_x` loop of `draw`, processing columns 0, …, n-1 in order. -/

def drawCols (buf : ℕ → Colour) (my : ℕ) : ℕ → List ℕ → List ℕ
  | 0, v => v
  | mx + 1, v => writeTile buf my mx (drawCols buf my mx v)

/-- The outer `mon_y` loop of `draw`, processing rows 0, …, n-1 in order. -/

def drawRows (buf : ℕ → Colour) : ℕ → List ℕ → List ℕ
  | 0, v => v
  | my + 1, v => drawCols buf my MON_WIDTH (drawRows buf my v)

/-- `buffer.rs::Buffer::draw`: the encoded frame. -/

def draw (buf : ℕ → Colour) : List ℕ :=
  drawRows buf MON_HEIGHT (List.replicate (MON_WIDTH * MON_HEIGHT * 3) 0)

/-- Failure of a world upload: a protocol error for an unknown block
character (`D::Error::custom`), or a Rust panic (out-of-bounds `Vec` index /
indexing an empty `contents`). -/

inductive UploadError where
  | unknownBlock (c : Char)
  | panic
deriving DecidableEq

/-- `world.rs::Block::parse`. -/

def Block.parse (c : Char) : Option Block :=
  match c with
  | ' ' => some .air
  | 'd' => some .dirt
  | 'g' => some .grass
  | 's' => some .stone
  | 'w' => some .water
  | _ => none

/-- `World::new`: an all-Air block array of length width·height·depth. -/

def World.new (width height depth : ℕ) : World :=
  ⟨width, height, depth, List.replicate (width * height * depth) .air⟩

/-- `World::set` in a release build: the `debug_assert!` bounds check is
compiled out, and the `Vec` write panics (modelled as `none`) exactly when
the linear index `x + y·width + z·height·width` is out of range.  (A
coordinate beyond its own dimension whose linear index is still in range
silently aliases another cell, as in release Rust.) -/

def World.set (w : World) (x y z : ℕ) (b : Block) : Option World :=
  if x + y * w.width + z * w.height * w.width < w.blocks.length then
    some { w with blocks := setAt w.blocks (x + y * w.width + z * w.height * w.width) b }
  else
    none

/-- The inner `for (x, cell) in row.chars().enumerate()` loop of
`World::deserialize`, starting at column x. -/

def setRow : World → ℕ → ℕ → ℕ → List Char → Except UploadError World
  | w, _, _, _, [] => .ok w
  | w, y, z, x, c :: cs =>
      match Block.parse c with
      | none => .error (.unknownBlock c)
      | some b =>
          match w.set x y z b with
          | none => .error .panic
          | some w2 => setRow w2 y z (x + 1) cs

/-- The `for (z, row) in plane.iter().enumerate()` loop. -/

def setPlane : World → ℕ → ℕ → List (List Char) → Except UploadError World
  | w, _, _, [] => .ok w
  | w, y, z, row :: rows =>
      match setRow w y z 0 row with
      | .error e => .error e
      | .ok w2 => setPlane w2 y (z + 1) rows

/-- The `for (y, plane) in contents.iter().enumerate()` loop. -/

def setPlanes : World → ℕ → List (List (List Char)) → Except UploadError World
  | w, _, [] => .ok w
  | w, y, plane :: planes =>
      match setPlane w y 0 plane with
      | .error e => .error e
      | .ok w2 => setPlanes w2 (y + 1) planes

/-- `World::deserialize` (`world.rs` lines 63-89): width from the first
row's length, height from the outer length, depth from the first plane's
length; then every cell is parsed and written.  `contents[0]` / `[0][0]` on
an empty upload panics (modelled as the panic error). -/

def deserializeWorld (contents : List (List (List Char))) : Except UploadError World :=
  match contents with
  | [] => .error .panic
  | plane0 :: _ =>
      match plane0 with
      | [] => .error .panic
      | row0 :: _ =>
          setPlanes (World.new row0.length contents.length plane0.length) 0 contents

/-- The non-rectangular upload of the C7 counterexample: one plane whose
second row is shorter than the first. -/

def exUpload : List (List (List Char)) := [[['s', 's'], ['s']]]

/-! ## Theorems -/

/-- C1: for every ray, the DDA tracer initialises each axis with step = +1 if
the direction component is positive, -1 if negative, 0 if zero; deltaDist =
1/|direction| or the sentinel 1e30 when the component is zero; map = the
truncated start coordinate; and sideDist = deltaDist*(1 - frac(start)) when
direction > 0, else deltaDist*frac(start); and every loop iteration advances
exactly one axis chosen by the cascade (X vs Y first, then vs Z, preferring
X/Y over Z only when strictly less), adding that axis's deltaDist to its
sideDist and its step to its map, leaving the other two axes unchanged. -/
theorem C1_dda_init_and_cascade (start direction : ℚ) (s : TState) :
    (get_dists start direction).2.1 =
      (if 0 < direction then 1 else if direction < 0 then -1 else 0) ∧
    (get_dists start direction).2.2.1 =
      (if direction = 0 then 10 ^ 30 else 1 / |direction|) ∧
    (get_dists start direction).1 = rtrunc start ∧
    (get_dists start direction).2.2.2 =
      (if 0 < direction then (get_dists start direction).2.2.1 * (1 - rfract start)
       else (get_dists start direction).2.2.1 * rfract start) ∧
    chooseAxis s =
      (if (s .X).sideDist < (s .Y).sideDist then
        (if (s .X).sideDist < (s .Z).sideDist then Plane.X else Plane.Z)
       else if (s .Y).sideDist < (s .Z).sideDist then Plane.Y else Plane.Z) ∧
    (stepState s (chooseAxis s)).sideDist =
      (s (chooseAxis s)).sideDist + (s (chooseAxis s)).deltaDist ∧
    (stepState s (chooseAxis s)).map = (s (chooseAxis s)).map + (s (chooseAxis s)).step ∧
    (stepState s (chooseAxis s)).step = (s (chooseAxis s)).step ∧
    (stepState s (chooseAxis s)).deltaDist = (s (chooseAxis s)).deltaDist ∧
    (∀ p, p ≠ chooseAxis s → stepState s p = s p) := by
  refine ⟨?_, rfl, rfl, ?_, rfl, ?_, ?_, ?_, ?_, ?_⟩
  · show (if direction = 0 then (0 : ℤ) else if direction < 0 then -1 else 1) = _
    rcases lt_trichotomy direction 0 with h | h | h
    · rw [if_neg (by linarith), if_pos h, if_neg (by linarith), if_pos h]
    · rw [if_pos h, if_neg (by simp [h]), if_neg (by simp [h])]
    · rw [if_neg (by linarith), if_neg (by linarith), if_pos h]
  · by_cases h : 0 < direction
    · simp [get_dists, h]
    · simp [get_dists, h]
  · simp [stepState, advanceAxis]
  · simp [stepState, advanceAxis]
  · simp [stepState, advanceAxis]
  · simp [stepState, advanceAxis]
  · intro p hp
    simp [stepState, hp]

/-- Inversion for the hit branch of the loop body: a returned hit carries the
block found at the stepped map coordinates (which is not Air), the raw
`face_offset` result, and the diagnostic flag computed from that offset. -/
theorem checkCell_hit_inv {world : World} {start direction : Vec3 ℚ} {side : Plane}
    {s : TState} {hit : Hit} {w : Bool}
    (h : checkCell world start direction side s = some (some (hit, w))) :
    hit = ⟨world.get (s .X).map.toNat (s .Y).map.toNat (s .Z).map.toNat, side,
           (face_offset start direction s side).2⟩ ∧
    world.get (s .X).map.toNat (s .Y).map.toNat (s .Z).map.toNat ≠ .air ∧
    w = (decide (1 < (face_offset start direction s side).2.1) ||
         decide (1 < (face_offset start direction s side).2.2) ||
         decide ((face_offset start direction s side).2.1 < 0) ||
         decide ((face_offset start direction s side).2.2 < 0)) := by
  unfold checkCell at h
  split at h
  · simp only [] at h
    split at h
    · exact absurd h (by simp)
    · next hair =>
        simp only [Option.some.injEq, Prod.mk.injEq] at h
        exact ⟨h.1.symm, hair, h.2.symm⟩
  · split at h
    · exact absurd h (by simp)
    · exact absurd h (by simp)

/-- C2: whenever the loop body returns a hit whose last-stepped axis is S, the
returned UV offset equals the spec's face formulas: with
plane = map_S + 1 if step_S < 0 else map_S and t = (plane − start_S)/direction_S,
the offset is (start_z + direction_z·t − map_z, 1 − (start_y + direction_y·t − map_y))
for S = X, (start_x + direction_x·t − map_x, start_z + direction_z·t − map_z)
for S = Y, and (start_x + direction_x·t − map_x, 1 − (start_y + direction_y·t − map_y))
for S = Z. -/
theorem C2_face_offset_formulas (world : World) (start direction : Vec3 ℚ)
    (side : Plane) (s : TState) (hit : Hit) (w : Bool)
    (h : checkCell world start direction side s = some (some (hit, w))) :
    hit.side = side ∧
    hit.offset =
      (match side with
       | .X =>
           let plane : ℤ := if (s .X).step < 0 then (s .X).map + 1 else (s .X).map
           let t : ℚ := ((plane : ℚ) - start.x) / direction.x
           (start.z + direction.z * t - ((s .Z).map : ℚ),
            1 - (start.y + direction.y * t - ((s .Y).map : ℚ)))
       | .Y =>
           let plane : ℤ := if (s .Y).step < 0 then (s .Y).map + 1 else (s .Y).map
           let t : ℚ := ((plane : ℚ) - start.y) / direction.y
           (start.x + direction.x * t - ((s .X).map : ℚ),
            start.z + direction.z * t - ((s .Z).map : ℚ))
       | .Z =>
           let plane : ℤ := if (s .Z).step < 0 then (s .Z).map + 1 else (s .Z).map
           let t : ℚ := ((plane : ℚ) - start.z) / direction.z
           (start.x + direction.x * t - ((s .X).map : ℚ),
            1 - (start.y + direction.y * t - ((s .Y).map : ℚ)))) := by
  obtain ⟨h1, -, -⟩ := checkCell_hit_inv h
  subst h1
  refine ⟨rfl, ?_⟩
  cases side <;> rfl

/-- C10: a hit returned by the trace loop never carries the Air block. -/
theorem C10_hit_never_air (world : World) (start direction : Vec3 ℚ) (fuel : ℕ)
    (s : TState) (hit : Hit) (w : Bool)
    (h : traceLoop world start direction fuel s = some (some (hit, w))) :
    hit.block ≠ Block.air := by
  induction fuel generalizing s with
  | zero => exact absurd h (by simp [traceLoop])
  | succ n ih =>
      have hunf : traceLoop world start direction (n + 1) s =
          (match checkCell world start direction (chooseAxis s) (stepState s) with
           | some r => some r
           | none => traceLoop world start direction n (stepState s)) := rfl
      rw [hunf] at h
      cases hc : checkCell world start direction (chooseAxis s) (stepState s) with
      | some r =>
          rw [hc] at h
          simp only [Option.some.injEq] at h
          subst h
          obtain ⟨h1, h2, -⟩ := checkCell_hit_inv hc
          rw [h1]
          exact h2
      | none =>
          rw [hc] at h
          exact ih _ h

/-- The clamped sample coordinates always land inside the 8×8 image. -/
theorem Textures.sampleIdx_lt (hit : Hit) : Textures.sampleIdx hit < 64 := by
  show (Int.toNat ⌊hit.offset.1 * (TEX_WIDTH : ℚ)⌋).min (TEX_WIDTH - 1) +
      (Int.toNat ⌊hit.offset.2 * (TEX_WIDTH : ℚ)⌋).min (TEX_WIDTH - 1) * TEX_WIDTH < 64
  have hx : (Int.toNat ⌊hit.offset.1 * (TEX_WIDTH : ℚ)⌋).min (TEX_WIDTH - 1) ≤ 7 :=
    le_trans (Nat.min_le_right _ _) (by norm_num [TEX_WIDTH])
  have hy : (Int.toNat ⌊hit.offset.2 * (TEX_WIDTH : ℚ)⌋).min (TEX_WIDTH - 1) ≤ 7 :=
    le_trans (Nat.min_le_right _ _) (by norm_num [TEX_WIDTH])
  have hw : TEX_WIDTH = 8 := rfl
  rw [hw] at hx hy ⊢
  omega

/-- C6: a hit whose UV offset leaves [0, 1] sets the diagnostic flag (and only
then), is returned with the offset unclamped (exactly the raw `face_offset`
result), and the texture sampler's clamping keeps its pixel index inside the
8×8 image, so sampling still yields a colour. -/
theorem C6_warn_and_clamp (world : World) (start direction : Vec3 ℚ) (side : Plane)
    (s : TState) (hit : Hit) (w : Bool)
    (h : checkCell world start direction side s = some (some (hit, w))) :
    (w = true ↔
      (1 < hit.offset.1 ∨ 1 < hit.offset.2 ∨ hit.offset.1 < 0 ∨ hit.offset.2 < 0)) ∧
    hit.offset = (face_offset start direction s side).2 ∧
    Textures.sampleIdx hit < 64 := by
  obtain ⟨h1, -, h3⟩ := checkCell_hit_inv h
  subst h1
  refine ⟨?_, rfl, Textures.sampleIdx_lt _⟩
  rw [h3]
  simp [or_assoc]

/-- C8: for every pixel (x, y) of the framebuffer, the renderer computes
ox = (1 − x/BUF_WIDTH)·8 and oy = (1 − y/BUF_HEIGHT)·6, traces the ray with
start (ox + Ox, oy + Oy, Oz) and direction (ox − Px, oy − Py, −Pz), and
writes sky colour 9 on a miss, otherwise the texture colour sampled from the
hit. -/
theorem C8_render_pixel_formula (fuel : ℕ) (world : World) (textures : Textures)
    (offset position : Vec3 ℚ) (x y : ℕ)
    (hx : x < BUF_WIDTH) (hy : y < BUF_HEIGHT) :
    renderPixel fuel world textures offset position x y =
      (trace fuel world
          ⟨(1 - (x : ℚ) / (BUF_WIDTH : ℚ)) * 8 + offset.x,
           (1 - (y : ℚ) / (BUF_HEIGHT : ℚ)) * 6 + offset.y, offset.z⟩
          ⟨(1 - (x : ℚ) / (BUF_WIDTH : ℚ)) * 8 - position.x,
           (1 - (y : ℚ) / (BUF_HEIGHT : ℚ)) * 6 - position.y, -position.z⟩).map
        (fun r =>
          match r with
          | none => (9 : Colour)
          | some (hit, _) => textures.get_colour hit) := rfl

theorem exInit : initState exStart exDir = exInit0 := by
  funext p
  cases p <;>
    norm_num [initState, mkState, get_dists, rtrunc, rfract, exStart, exDir, Vec3.comp, exInit0]

theorem exChoose : chooseAxis exInit0 = .X := by
  norm_num [chooseAxis, exInit0, mkState]

theorem exStep : stepState exInit0 = exStepped := by
  funext p
  cases p
  · simp only [stepState, exChoose]
    norm_num [advanceAxis, exInit0, exStepped, mkState]
  · simp only [stepState, exChoose]
    rw [if_neg (by decide)]
    rfl
  · simp only [stepState, exChoose]
    rw [if_neg (by decide)]
    rfl

theorem exCheck : checkCell exWorld exStart exDir .X exStepped =
    some (some (exHit, false)) := by
  norm_num [checkCell, exWorld, exStart, exDir, exStepped, mkState, World.get,
    face_offset, exHit, outside]
  intro h
  exact absurd h (by decide)

theorem exTrace : traceLoop exWorld exStart exDir 1 (initState exStart exDir) =
    some (some (exHit, false)) := by
  have h1 : traceLoop exWorld exStart exDir 1 (initState exStart exDir) =
      (match checkCell exWorld exStart exDir (chooseAxis (initState exStart exDir))
          (stepState (initState exStart exDir)) with
       | some r => some r
       | none => traceLoop exWorld exStart exDir 0 (stepState (initState exStart exDir))) := rfl
  rw [h1, exInit, exChoose, exStep, exCheck]

/-- Witness for C2: the hit of the concrete traced ray satisfies the face
formulas at the stepped state. -/
theorem C2_face_offset_formulas_witness :
    exHit.side = Plane.X ∧
    exHit.offset =
      (match Plane.X with
       | .X =>
           let plane : ℤ :=
             if (exStepped .X).step < 0 then (exStepped .X).map + 1 else (exStepped .X).map
           let t : ℚ := ((plane : ℚ) - exStart.x) / exDir.x
           (exStart.z + exDir.z * t - ((exStepped .Z).map : ℚ),
            1 - (exStart.y + exDir.y * t - ((exStepped .Y).map : ℚ)))
       | .Y =>
           let plane : ℤ :=
             if (exStepped .Y).step < 0 then (exStepped .Y).map + 1 else (exStepped .Y).map
           let t : ℚ := ((plane : ℚ) - exStart.y) / exDir.y
           (exStart.x + exDir.x * t - ((exStepped .X).map : ℚ),
            exStart.z + exDir.z * t - ((exStepped .Z).map : ℚ))
       | .Z =>
           let plane : ℤ :=
             if (exStepped .Z).step < 0 then (exStepped .Z).map + 1 else (exStepped .Z).map
           let t : ℚ := ((plane : ℚ) - exStart.z) / exDir.z
           (exStart.x + exDir.x * t - ((exStepped .X).map : ℚ),
            1 - (exStart.y + exDir.y * t - ((exStepped .Y).map : ℚ)))) :=
  C2_face_offset_formulas exWorld exStart exDir .X exStepped exHit false exCheck

/-- Witness for C6: the concrete hit's offset lies in range, the diagnostic
flag is off, the offset is the raw face offset, and the sample index is in
bounds. -/
theorem C6_warn_and_clamp_witness :
    (false = true ↔
      (1 < exHit.offset.1 ∨ 1 < exHit.offset.2 ∨ exHit.offset.1 < 0 ∨ exHit.offset.2 < 0)) ∧
    exHit.offset = (face_offset exStart exDir exStepped .X).2 ∧
    Textures.sampleIdx exHit < 64 :=
  C6_warn_and_clamp exWorld exStart exDir .X exStepped exHit false exCheck

/-- Witness for C10: the concrete traced ray's hit is not Air. -/
theorem C10_hit_never_air_witness : exHit.block ≠ Block.air :=
  C10_hit_never_air exWorld exStart exDir 1 (initState exStart exDir) exHit false exTrace

/-- Witness for C8: the per-pixel formula at pixel (0, 0) with no fuel. -/
theorem C8_render_pixel_formula_witness :
    renderPixel 0 exWorld exTex exStart exStart 0 0 =
      (trace 0 exWorld
          ⟨(1 - (0 : ℚ) / (BUF_WIDTH : ℚ)) * 8 + exStart.x,
           (1 - (0 : ℚ) / (BUF_HEIGHT : ℚ)) * 6 + exStart.y, exStart.z⟩
          ⟨(1 - (0 : ℚ) / (BUF_WIDTH : ℚ)) * 8 - exStart.x,
           (1 - (0 : ℚ) / (BUF_HEIGHT : ℚ)) * 6 - exStart.y, -exStart.z⟩).map
        (fun r =>
          match r with
          | none => (9 : Colour)
          | some (hit, _) => exTex.get_colour hit) :=
  C8_render_pixel_formula 0 exWorld exTex exStart exStart 0 0 (by decide) (by decide)

/-- The chosen axis has the (weakly) smallest sideDist. -/
theorem chooseAxis_min (s : TState) (a : Plane) :
    (s (chooseAxis s)).sideDist ≤ (s a).sideDist := by
  unfold chooseAxis
  split_ifs with h1 h2 h3 <;> cases a <;> linarith

theorem stepState_chosen (s : TState) :
    stepState s (chooseAxis s) = advanceAxis (s (chooseAxis s)) := by
  simp [stepState]

theorem stepState_other (s : TState) (p : Plane) (h : p ≠ chooseAxis s) :
    stepState s p = s p := by
  simp [stepState, h]

theorem stepState_step (s : TState) (p : Plane) :
    (stepState s p).step = (s p).step := by
  unfold stepState
  split <;> rfl

theorem stepState_deltaDist (s : TState) (p : Plane) :
    (stepState s p).deltaDist = (s p).deltaDist := by
  unfold stepState
  split <;> rfl

theorem outside_eq_false {v hi st : ℤ} (h0 : 0 ≤ v) (hhi : v < hi) :
    outside v 0 hi st = false := by
  unfold outside
  split <;> simp only [decide_eq_false_iff_not] <;> omega

/-- A continuing loop iteration leaves every axis inside its `outside` test. -/
theorem checkCell_none_not_outside {world : World} {start direction : Vec3 ℚ}
    {side : Plane} {s : TState}
    (h : checkCell world start direction side s = none) (p : Plane) :
    outside (s p).map 0 (axisBound world p) (s p).step = false := by
  unfold checkCell at h
  split at h
  · next hin =>
      obtain ⟨h1, h2, h3, h4, h5, h6⟩ := hin
      cases p <;> exact outside_eq_false (by assumption) (by assumption)
  · split at h
    · exact absurd h (by simp)
    · next hor =>
        rw [Bool.or_eq_true, Bool.or_eq_true] at hor
        push_neg at hor
        obtain ⟨⟨hx', hy'⟩, hz'⟩ := hor
        cases p
        · exact Bool.eq_false_iff.mpr hx'
        · exact Bool.eq_false_iff.mpr hy'
        · exact Bool.eq_false_iff.mpr hz'

theorem othersOf_ne {A b : Plane} (hb : b ∈ othersOf A) : b ≠ A := by
  cases A <;> simp [othersOf] at hb <;> rcases hb with h | h <;> subst h <;> simp

theorem mem_othersOf {A b : Plane} (hb : b ≠ A) : b ∈ othersOf A := by
  cases A <;> cases b <;> simp [othersOf] at hb ⊢

/-- Advancing the focus axis while it stays in play: its remaining-step count
drops by one and stays nonnegative, and `tBound` is invariant. -/
theorem chosen_focus_facts (world : World) (A : Plane) (s : TState)
    (hA : (s A).step = 1 ∨ (s A).step = -1)
    (hc : chooseAxis s = A)
    (hout : outside (stepState s A).map 0 (axisBound world A) ((stepState s A).step) = false) :
    remSteps world A (stepState s) = remSteps world A s - 1 ∧
    1 ≤ remSteps world A (stepState s) ∧
    tBound world A (stepState s) = tBound world A s ∧
    (∀ b, b ≠ A → gPot world A (stepState s) b = gPot world A s b) := by
  have hadv : stepState s A = advanceAxis (s A) := by
    rw [← hc]
    exact stepState_chosen s
  have hmap : (stepState s A).map = (s A).map + (s A).step := by rw [hadv]; rfl
  have hstep : (stepState s A).step = (s A).step := stepState_step s A
  have hside : (stepState s A).sideDist = (s A).sideDist + (s A).deltaDist := by rw [hadv]; rfl
  have hdelta : (stepState s A).deltaDist = (s A).deltaDist := stepState_deltaDist s A
  rw [hmap, hstep] at hout
  have hrem : remSteps world A (stepState s) = remSteps world A s - 1 := by
    unfold remSteps
    rw [hmap, hstep]
    rcases hA with h | h <;> rw [h]
    · rw [if_neg (by norm_num), if_neg (by norm_num)]
      ring
    · rw [if_pos (by norm_num), if_pos (by norm_num)]
      ring
  have hrem1 : 1 ≤ remSteps world A (stepState s) := by
    unfold remSteps
    rw [hmap, hstep]
    unfold outside at hout
    rcases hA with h | h <;> rw [h] <;> rw [h] at hout
    · rw [if_neg (by norm_num)] at hout
      rw [if_neg (by norm_num)]
      simp only [decide_eq_false_iff_not] at hout
      omega
    · rw [if_pos (by norm_num)] at hout
      rw [if_pos (by norm_num)]
      simp only [decide_eq_false_iff_not] at hout
      omega
  have hrge : 1 ≤ remSteps world A s - 1 := hrem ▸ hrem1
  have hn : (remSteps world A s - 1).toNat + 1 = (remSteps world A s).toNat := by omega
  have hcast : ((remSteps world A s - 1).toNat : ℚ) = ((remSteps world A s).toNat : ℚ) - 1 := by
    rw [← hn]
    push_cast
    ring
  have htB : tBound world A (stepState s) = tBound world A s := by
    unfold tBound
    rw [hside, hdelta, hrem, hcast]
    ring
  refine ⟨hrem, hrem1, htB, ?_⟩
  intro b hb
  have hbs : stepState s b = s b := stepState_other s b (by rw [hc]; exact hb)
  unfold gPot
  rw [hbs, htB]

/-- Advancing a non-focus chosen axis: the focus axis's components are
untouched and the chosen axis's choice potential drops by exactly one. -/
theorem chosen_other_facts (world : World) (A : Plane) (s : TState)
    (hδ : ∀ p, 0 < (s p).deltaDist)
    (hc : chooseAxis s ≠ A) :
    remSteps world A (stepState s) = remSteps world A s ∧
    tBound world A (stepState s) = tBound world A s ∧
    gPot world A (stepState s) (chooseAxis s) + 1 = gPot world A s (chooseAxis s) ∧
    (∀ b, b ≠ A → b ≠ chooseAxis s → gPot world A (stepState s) b = gPot world A s b) := by
  have hAunch : stepState s A = s A := stepState_other s A (fun hh => hc hh.symm)
  have hrem : remSteps world A (stepState s) = remSteps world A s := by
    unfold remSteps
    rw [hAunch]
  have htB : tBound world A (stepState s) = tBound world A s := by
    unfold tBound
    rw [hAunch, hrem]
  refine ⟨hrem, htB, ?_, ?_⟩
  · have hadv : stepState s (chooseAxis s) = advanceAxis (s (chooseAxis s)) :=
      stepState_chosen s
    have hδc := hδ (chooseAxis s)
    have hT : (s (chooseAxis s)).sideDist ≤ tBound world A s := by
      have h1 := chooseAxis_min s A
      have h2 : (0 : ℚ) ≤ ((remSteps world A s).toNat : ℚ) * (s A).deltaDist :=
        mul_nonneg (Nat.cast_nonneg _) (le_of_lt (hδ A))
      unfold tBound
      linarith
    unfold gPot
    rw [htB, hadv]
    unfold advanceAxis
    have hdiv : (tBound world A s - ((s (chooseAxis s)).sideDist + (s (chooseAxis s)).deltaDist)) /
        (s (chooseAxis s)).deltaDist =
        (tBound world A s - (s (chooseAxis s)).sideDist) / (s (chooseAxis s)).deltaDist - 1 := by
      field_simp
      ring
    rw [hdiv]
    have hfloor : ⌊(tBound world A s - (s (chooseAxis s)).sideDist) /
        (s (chooseAxis s)).deltaDist - 1⌋ =
        ⌊(tBound world A s - (s (chooseAxis s)).sideDist) / (s (chooseAxis s)).deltaDist⌋ - 1 := by
      exact_mod_cast Int.floor_sub_int
        ((tBound world A s - (s (chooseAxis s)).sideDist) / (s (chooseAxis s)).deltaDist) 1
    rw [hfloor]
    have hnn : 0 ≤ ⌊(tBound world A s - (s (chooseAxis s)).sideDist) /
        (s (chooseAxis s)).deltaDist⌋ :=
      Int.floor_nonneg.mpr (div_nonneg (by linarith) (le_of_lt hδc))
    omega
  · intro b hbA hbc
    have hbs : stepState s b = s b := stepState_other s b hbc
    unfold gPot
    rw [htB, hbs]

/-- A continuing loop iteration strictly decreases the termination measure of
any focus axis that steps by ±1. -/
theorem ddaMeasure_lt (world : World) (start direction : Vec3 ℚ) (A : Plane) (s : TState)
    (hδ : ∀ p, 0 < (s p).deltaDist)
    (hA : (s A).step = 1 ∨ (s A).step = -1)
    (h : checkCell world start direction (chooseAxis s) (stepState s) = none) :
    ddaMeasure world A (stepState s) < ddaMeasure world A s := by
  have hout := fun p => checkCell_none_not_outside h p
  by_cases hc : chooseAxis s = A
  · obtain ⟨h1, h2, h3, h4⟩ := chosen_focus_facts world A s hA hc (hout A)
    unfold ddaMeasure
    have hsum : ((othersOf A).map (gPot world A (stepState s))).sum =
        ((othersOf A).map (gPot world A s)).sum := by
      have hmc : ∀ b ∈ othersOf A, gPot world A (stepState s) b = gPot world A s b :=
        fun b hb => h4 b (othersOf_ne hb)
      rw [List.map_congr_left hmc]
    rw [hsum]
    omega
  · obtain ⟨h1, h2, h3, h4⟩ := chosen_other_facts world A s hδ hc
    unfold ddaMeasure
    rw [h1]
    apply Nat.add_lt_add_left
    cases A with
    | X =>
        cases hcc : chooseAxis s with
        | X => exact absurd hcc hc
        | Y =>
            rw [hcc] at h3
            have e1 := h4 Plane.Z (by simp) (by rw [hcc]; simp)
            simp only [othersOf, List.map, List.sum_cons, List.sum_nil]
            omega
        | Z =>
            rw [hcc] at h3
            have e1 := h4 Plane.Y (by simp) (by rw [hcc]; simp)
            simp only [othersOf, List.map, List.sum_cons, List.sum_nil]
            omega
    | Y =>
        cases hcc : chooseAxis s with
        | Y => exact absurd hcc hc
        | X =>
            rw [hcc] at h3
            have e1 := h4 Plane.Z (by simp) (by rw [hcc]; simp)
            simp only [othersOf, List.map, List.sum_cons, List.sum_nil]
            omega
        | Z =>
            rw [hcc] at h3
            have e1 := h4 Plane.X (by simp) (by rw [hcc]; simp)
            simp only [othersOf, List.map, List.sum_cons, List.sum_nil]
            omega
    | Z =>
        cases hcc : chooseAxis s with
        | Z => exact absurd hcc hc
        | X =>
            rw [hcc] at h3
            have e1 := h4 Plane.Y (by simp) (by rw [hcc]; simp)
            simp only [othersOf, List.map, List.sum_cons, List.sum_nil]
            omega
        | Y =>
            rw [hcc] at h3
            have e1 := h4 Plane.X (by simp) (by rw [hcc]; simp)
            simp only [othersOf, List.map, List.sum_cons, List.sum_nil]
            omega

/-- With enough fuel (any amount beyond the measure of a suitable focus
axis), the trace loop returns. -/
theorem traceLoop_isSome (world : World) (start direction : Vec3 ℚ) (A : Plane) :
    ∀ (n : ℕ) (s : TState), (∀ p, 0 < (s p).deltaDist) →
      ((s A).step = 1 ∨ (s A).step = -1) →
      ddaMeasure world A s < n →
      (traceLoop world start direction n s).isSome = true := by
  intro n
  induction n with
  | zero => intro s _ _ hm; omega
  | succ n ih =>
      intro s hδ hA hm
      have hunf : traceLoop world start direction (n + 1) s =
          (match checkCell world start direction (chooseAxis s) (stepState s) with
           | some r => some r
           | none => traceLoop world start direction n (stepState s)) := rfl
      rw [hunf]
      cases hcc : checkCell world start direction (chooseAxis s) (stepState s) with
      | some r => simp
      | none =>
          have hδ2 : ∀ p, 0 < (stepState s p).deltaDist := fun p => by
            rw [stepState_deltaDist]
            exact hδ p
          have hA2 : (stepState s A).step = 1 ∨ (stepState s A).step = -1 := by
            rw [stepState_step]
            exact hA
          have hlt := ddaMeasure_lt world start direction A s hδ hA hcc
          exact ih (stepState s) hδ2 hA2 (by omega)

theorem initState_deltaDist_pos (start direction : Vec3 ℚ) (p : Plane) :
    0 < (initState start direction p).deltaDist := by
  show 0 < (get_dists (start.comp p) (direction.comp p)).2.2.1
  unfold get_dists
  by_cases h : direction.comp p = 0
  · simp only [h, if_pos rfl]
    norm_num
  · simp only [if_neg h]
    exact one_div_pos.mpr (abs_pos.mpr h)

theorem initState_step_pm (start direction : Vec3 ℚ) (p : Plane)
    (h : direction.comp p ≠ 0) :
    (initState start direction p).step = 1 ∨ (initState start direction p).step = -1 := by
  show (get_dists (start.comp p) (direction.comp p)).2.1 = 1 ∨
    (get_dists (start.comp p) (direction.comp p)).2.1 = -1
  unfold get_dists
  by_cases hlt : direction.comp p < 0
  · right
    simp [h, hlt]
  · left
    simp [h, hlt]

/-- C3 (amended): the trace loop terminates for every direction with at least
one nonzero component. -/
theorem C3_terminates_of_nonzero_direction (world : World) (start direction : Vec3 ℚ)
    (h : direction.x ≠ 0 ∨ direction.y ≠ 0 ∨ direction.z ≠ 0) :
    ∃ fuel, (trace fuel world start direction).isSome = true := by
  have hδ := initState_deltaDist_pos start direction
  have hA : ∃ A : Plane, direction.comp A ≠ 0 := by
    rcases h with h | h | h
    · exact ⟨.X, h⟩
    · exact ⟨.Y, h⟩
    · exact ⟨.Z, h⟩
  obtain ⟨A, hA⟩ := hA
  exact ⟨ddaMeasure world A (initState start direction) + 1,
    traceLoop_isSome world start direction A _ _ hδ
      (initState_step_pm start direction A hA) (by omega)⟩

/-- With every axis frozen (step 0) over the in-bounds Air cell, the loop
body continues forever: maps never change and no return branch fires. -/
theorem frozen_loop_none :
    ∀ (n : ℕ) (s : TState), (∀ p, (s p).map = 0 ∧ (s p).step = 0) →
      traceLoop exAirWorld exCenter exZeroDir n s = none := by
  intro n
  induction n with
  | zero => intro s _; rfl
  | succ n ih =>
      intro s hs
      have hs2 : ∀ p, (stepState s p).map = 0 ∧ (stepState s p).step = 0 := by
        intro p
        unfold stepState
        split
        · unfold advanceAxis
          have := hs p
          constructor
          · show (s p).map + (s p).step = 0
            omega
          · exact this.2
        · exact hs p
      have hcheck : checkCell exAirWorld exCenter exZeroDir (chooseAxis s) (stepState s) = none := by
        unfold checkCell
        have m1 := (hs2 .X).1
        have m2 := (hs2 .Y).1
        have m3 := (hs2 .Z).1
        rw [if_pos]
        · have hget : exAirWorld.get (stepState s Plane.X).map.toNat
              (stepState s Plane.Y).map.toNat (stepState s Plane.Z).map.toNat = Block.air := by
            rw [m1, m2, m3]
            rfl
          simp [hget]
        · exact ⟨by rw [m1], by rw [m1]; norm_num [exAirWorld],
            by rw [m2], by rw [m2]; norm_num [exAirWorld],
            by rw [m3], by rw [m3]; norm_num [exAirWorld]⟩
      have hunf : traceLoop exAirWorld exCenter exZeroDir (n + 1) s =
          (match checkCell exAirWorld exCenter exZeroDir (chooseAxis s) (stepState s) with
           | some r => some r
           | none => traceLoop exAirWorld exCenter exZeroDir n (stepState s)) := rfl
      rw [hunf, hcheck]
      exact ih (stepState s) hs2

/-- C3 is refuted as stated: on the all-zero direction over an in-bounds Air
cell the trace loop never returns. -/
theorem C3_counterexample_zero_direction : divergesAt exAirWorld exCenter exZeroDir := by
  intro fuel
  apply frozen_loop_none
  intro p
  constructor
  · show (get_dists (exCenter.comp p) (exZeroDir.comp p)).1 = 0
    cases p <;> norm_num [exCenter, exZeroDir, Vec3.comp, get_dists, rtrunc]
  · show (get_dists (exCenter.comp p) (exZeroDir.comp p)).2.1 = 0
    cases p <;> norm_num [exCenter, exZeroDir, Vec3.comp, get_dists]

/-- Witness for the amended C3: the concrete +X ray terminates. -/
theorem C3_terminates_witness :
    ∃ fuel, (trace fuel exWorld exStart exDir).isSome = true :=
  C3_terminates_of_nonzero_direction exWorld exStart exDir (Or.inl (by norm_num [exDir]))

theorem tally_fst_eq (l : List ℕ) (f : ℕ → ℕ) (u : ℕ) (c : ℕ) :
    (l.foldl tallyStep (f, u)).1 c = f c + l.count c := by
  induction l generalizing f u with
  | nil => simp
  | cons a t ih =>
      rw [List.foldl_cons, ih]
      by_cases h : c = a
      · subst h
        simp [tallyStep, List.count_cons]
        omega
      · simp [tallyStep, h, List.count_cons, Ne.symm h]

theorem tally_snd_eq (l : List ℕ) (f : ℕ → ℕ) (u : ℕ) :
    (l.foldl tallyStep (f, u)).2 = u + (l.toFinset.filter (fun c => f c = 0)).card := by
  induction l generalizing f u with
  | nil => simp
  | cons a t ih =>
      rw [List.foldl_cons, ih]
      have hfilter : t.toFinset.filter (fun c => (tallyStep (f, u) a).1 c = 0) =
          (t.toFinset.filter (fun c => f c = 0)).erase a := by
        ext c
        by_cases h : c = a <;> simp [tallyStep, h, Finset.mem_erase] <;> tauto
      rw [hfilter, List.toFinset_cons]
      by_cases ha : f a = 0
      · rw [Finset.filter_insert, if_pos ha]
        have h2 : (tallyStep (f, u) a).2 = u + 1 := by simp [tallyStep, ha]
        rw [h2]
        have hins : insert a (t.toFinset.filter (fun c => f c = 0)) =
            insert a ((t.toFinset.filter (fun c => f c = 0)).erase a) := by
          ext c
          simp [Finset.mem_erase]
          tauto
        rw [hins, Finset.card_insert_of_not_mem (Finset.not_mem_erase a _)]
        omega
      · rw [Finset.filter_insert, if_neg ha]
        have h2 : (tallyStep (f, u) a).2 = u := by simp [tallyStep, ha]
        rw [h2, Finset.erase_eq_of_not_mem (by simp [ha])]

theorem tileTotals_eq_count (p : ℕ → ℕ → Colour) (c : ℕ) :
    tileTotals p c = (tilePixels p).count c := by
  unfold tileTotals tally
  rw [tally_fst_eq]
  simp

theorem tileUnique_eq_card (p : ℕ → ℕ → Colour) :
    tileUnique p = (tilePixels p).toFinset.card := by
  unfold tileUnique tally
  rw [tally_snd_eq]
  simp

theorem tileRanked_sorted (p : ℕ → ℕ → Colour) :
    List.Sorted (rankLE p) (tileRanked p) :=
  List.sorted_insertionSort (rankLE p) (List.range 16)

theorem tileRanked_perm (p : ℕ → ℕ → Colour) :
    (tileRanked p).Perm (List.range 16) :=
  List.perm_insertionSort (rankLE p) (List.range 16)

theorem tileRanked_split (p : ℕ → ℕ → Colour) :
    ∃ rest, tileRanked p = tileBg p :: tileFg p :: rest := by
  have hlen : (tileRanked p).length = 16 := by
    rw [(tileRanked_perm p).length_eq, List.length_range]
  rcases hr : tileRanked p with _ | ⟨a, _ | ⟨b, rest⟩⟩
  · rw [hr] at hlen
    simp at hlen
  · rw [hr] at hlen
    simp at hlen
  · refine ⟨rest, ?_⟩
    unfold tileBg tileFg
    rw [hr]
    rfl

/-- The ranking facts behind case B: `bg` is rank-0 and `fg` rank-1 of the
stable descending-count order. -/
theorem tileRank_facts (p : ℕ → ℕ → Colour) :
    tileBg p ≠ tileFg p ∧
    (∀ c, c < 16 → rankLE p (tileBg p) c) ∧
    (∀ c, c < 16 → c ≠ tileBg p → rankLE p (tileFg p) c) := by
  obtain ⟨rest, hsplit⟩ := tileRanked_split p
  have hsort := tileRanked_sorted p
  have hnodup : (tileRanked p).Nodup := (tileRanked_perm p).nodup_iff.mpr (List.nodup_range 16)
  have hmem : ∀ c, c < 16 → c ∈ tileRanked p := fun c hc =>
    (tileRanked_perm p).mem_iff.mpr (List.mem_range.mpr hc)
  rw [hsplit] at hsort hnodup hmem
  have hbgfg : tileBg p ≠ tileFg p := by
    intro h
    exact (List.nodup_cons.mp hnodup).1 (h ▸ List.mem_cons_self _ _)
  refine ⟨hbgfg, ?_, ?_⟩
  · intro c hc
    have hcm := hmem c hc
    rw [List.mem_cons] at hcm
    rcases hcm with h | h
    · rw [h]
      exact Or.inr ⟨rfl, le_refl _⟩
    · exact (List.sorted_cons.mp hsort).1 c h
  · intro c hc hcbg
    have hcm := hmem c hc
    rw [List.mem_cons, List.mem_cons] at hcm
    rcases hcm with h | h | h
    · exact absurd h hcbg
    · rw [h]
      exact Or.inr ⟨rfl, le_refl _⟩
    · exact (List.sorted_cons.mp (List.sorted_cons.mp hsort).2).1 c h

/-- C4: for every 2×3 tile with two or more distinct palette indices, the
encoder's `bg` is the palette index with the highest occurrence count and
`fg` the one with the second-highest, equal counts broken in favour of the
lower palette index. -/
theorem C4_tile_colour_ranking (p : ℕ → ℕ → Colour)
    (hpix : ∀ dx, dx < 2 → ∀ dy, dy < 3 → p dx dy < 16)
    (huniq : 2 ≤ tileUnique p) :
    tileBg p ≠ tileFg p ∧
    (∀ c, c < 16 → tileTotals p c ≤ tileTotals p (tileBg p)) ∧
    (∀ c, c < 16 → tileTotals p c = tileTotals p (tileBg p) → tileBg p ≤ c) ∧
    (∀ c, c < 16 → c ≠ tileBg p → tileTotals p c ≤ tileTotals p (tileFg p)) ∧
    (∀ c, c < 16 → c ≠ tileBg p → tileTotals p c = tileTotals p (tileFg p) →
      tileFg p ≤ c) := by
  obtain ⟨hne, hbg, hfg⟩ := tileRank_facts p
  refine ⟨hne, ?_, ?_, ?_, ?_⟩
  · intro c hc
    rcases hbg c hc with h | h
    · exact le_of_lt h
    · exact le_of_eq h.1.symm
  · intro c hc heq
    rcases hbg c hc with h | h
    · exact absurd heq (by omega)
    · exact h.2
  · intro c hc hcb
    rcases hfg c hc hcb with h | h
    · exact le_of_lt h
    · exact le_of_eq h.1.symm
  · intro c hc hcb heq
    rcases hfg c hc hcb with h | h
    · exact absurd heq (by omega)
    · exact h.2

/-- Witness for C4 at the concrete two-colour tile. -/
theorem C4_tile_colour_ranking_witness :
    tileBg exTile ≠ tileFg exTile ∧
    (∀ c, c < 16 → tileTotals exTile c ≤ tileTotals exTile (tileBg exTile)) ∧
    (∀ c, c < 16 → tileTotals exTile c = tileTotals exTile (tileBg exTile) →
      tileBg exTile ≤ c) ∧
    (∀ c, c < 16 → c ≠ tileBg exTile → tileTotals exTile c ≤ tileTotals exTile (tileFg exTile)) ∧
    (∀ c, c < 16 → c ≠ tileBg exTile → tileTotals exTile c = tileTotals exTile (tileFg exTile) →
      tileFg exTile ≤ c) :=
  C4_tile_colour_ranking exTile (by decide) (by decide)

theorem tileCode_testBit (p : ℕ → ℕ → Colour) (last : Colour) :
    Nat.testBit (tileCode p last) 0 = decide (p 0 0 ≠ last) ∧
    Nat.testBit (tileCode p last) 1 = decide (p 1 0 ≠ last) ∧
    Nat.testBit (tileCode p last) 2 = decide (p 0 1 ≠ last) ∧
    Nat.testBit (tileCode p last) 3 = decide (p 1 1 ≠ last) ∧
    Nat.testBit (tileCode p last) 4 = decide (p 0 2 ≠ last) ∧
    Nat.testBit (tileCode p last) 5 = false := by
  unfold tileCode
  by_cases h0 : p 0 0 = last <;> by_cases h1 : p 1 0 = last <;>
    by_cases h2 : p 0 1 = last <;> by_cases h3 : p 1 1 = last <;>
    by_cases h4 : p 0 2 = last <;>
    simp only [h0, h1, h2, h3, h4, if_pos, if_neg, ne_eq, not_true_eq_false,
      not_false_eq_true, ite_true, ite_false, decide_not] <;> decide

theorem decodeTile_mk (code F B dx dy : ℕ) :
    decodeTile (code, F, B) dx dy = if Nat.testBit code (2 * dy + dx) then F else B := rfl

theorem decode_core (L M v : ℕ) (hLM : M ≠ L) (hv : v = L ∨ v = M) :
    (if decide (v ≠ L) = true then M else L) = v := by
  rcases hv with h | h <;> simp [h, hLM]

/-- C5: for a tile with exactly two distinct palette indices, decoding the
emitted (glyph, fg, bg) triple — a set bit shows the emitted fg, a clear bit
(including the always-clear bottom-right bit) the emitted bg — recovers the
original tile at every cell. -/
theorem C5_two_colour_roundtrip (p : ℕ → ℕ → Colour)
    (hpix : ∀ dx, dx < 2 → ∀ dy, dy < 3 → p dx dy < 16)
    (huniq : tileUnique p = 2)
    (dx dy : ℕ) (hdx : dx < 2) (hdy : dy < 3) :
    decodeTile (encodeTile p) dx dy = p dx dy := by
  have hne1 : tileUnique p ≠ 1 := by omega
  have hcard : (tilePixels p).toFinset.card = 2 := by
    rw [← tileUnique_eq_card]
    exact huniq
  obtain ⟨a, b, hab, hset⟩ := Finset.card_eq_two.mp hcard
  have hmemab : ∀ v ∈ tilePixels p, v = a ∨ v = b := by
    intro v hv
    have hv2 : v ∈ (tilePixels p).toFinset := List.mem_toFinset.mpr hv
    rw [hset] at hv2
    simpa using hv2
  have hain : a ∈ tilePixels p := List.mem_toFinset.mp (by rw [hset]; simp)
  have hbin : b ∈ tilePixels p := List.mem_toFinset.mp (by rw [hset]; simp)
  have hlt16 : ∀ v ∈ tilePixels p, v < 16 := by
    intro v hv
    unfold tilePixels at hv
    simp only [List.mem_cons, List.not_mem_nil, or_false] at hv
    rcases hv with h | h | h | h | h | h <;> rw [h] <;>
      exact hpix _ (by norm_num) _ (by norm_num)
  have hcount : ∀ v ∈ tilePixels p, 1 ≤ tileTotals p v := by
    intro v hv
    rw [tileTotals_eq_count]
    exact List.count_pos_iff_mem.mpr hv
  obtain ⟨hne, hbgR, hfgR⟩ := tileRank_facts p
  have hbg16 : tileBg p < 16 := by
    obtain ⟨rest, hsplit⟩ := tileRanked_split p
    have hm : tileBg p ∈ tileRanked p := by
      rw [hsplit]
      simp
    exact List.mem_range.mp ((tileRanked_perm p).mem_iff.mp hm)
  have hfg16 : tileFg p < 16 := by
    obtain ⟨rest, hsplit⟩ := tileRanked_split p
    have hm : tileFg p ∈ tileRanked p := by
      rw [hsplit]
      simp
    exact List.mem_range.mp ((tileRanked_perm p).mem_iff.mp hm)
  have hbgmem : tileBg p ∈ tilePixels p := by
    rw [← List.count_pos_iff_mem, ← tileTotals_eq_count]
    have ha := hcount a hain
    rcases hbgR a (hlt16 a hain) with h | h <;> omega
  have hbgab := hmemab _ hbgmem
  have hfgmem : tileFg p ∈ tilePixels p := by
    rw [← List.count_pos_iff_mem, ← tileTotals_eq_count]
    by_contra hz
    push_neg at hz
    rcases hbgab with hba | hbb
    · have hb' : b ≠ tileBg p := by
        rw [hba]
        exact fun hh => hab hh.symm
      have hcb := hcount b hbin
      rcases hfgR b (hlt16 b hbin) hb' with h | h <;> omega
    · have ha' : a ≠ tileBg p := by
        rw [hbb]
        exact hab
      have hca := hcount a hain
      rcases hfgR a (hlt16 a hain) ha' with h | h <;> omega
  have hfgab := hmemab _ hfgmem
  have hcases : (tileBg p = a ∧ tileFg p = b) ∨ (tileBg p = b ∧ tileFg p = a) := by
    rcases hbgab with h1 | h1 <;> rcases hfgab with h2 | h2
    · exact absurd (h1.trans h2.symm) hne
    · exact Or.inl ⟨h1, h2⟩
    · exact Or.inr ⟨h1, h2⟩
    · exact absurd (h1.trans h2.symm) hne
  have hpixbgfg : ∀ v ∈ tilePixels p, v = tileBg p ∨ v = tileFg p := by
    intro v hv
    rcases hcases with ⟨h1, h2⟩ | ⟨h1, h2⟩ <;> rcases hmemab v hv with h | h
    · exact Or.inl (h.trans h1.symm)
    · exact Or.inr (h.trans h2.symm)
    · exact Or.inr (h.trans h2.symm)
    · exact Or.inl (h.trans h1.symm)
  by_cases hp12 : p 1 2 = tileFg p
  · have henc : encodeTile p = (tileCode p (tileFg p), tileBg p, tileFg p) := by
      unfold encodeTile
      rw [if_neg hne1]
      simp only [if_pos hp12]
      rw [if_neg (fun hh => hne hh.symm)]
    obtain ⟨hb0, hb1, hb2, hb3, hb4, hb5⟩ := tileCode_testBit p (tileFg p)
    rewrite [henc, decodeTile_mk]
    interval_cases dx <;> interval_cases dy
    · rewrite [show 2 * 0 + 0 = 0 from rfl, hb0]
      exact decode_core (tileFg p) (tileBg p) (p 0 0) hne (by
        rcases hpixbgfg (p 0 0) (by unfold tilePixels; simp) with h | h
        · exact Or.inr h
        · exact Or.inl h)
    · rewrite [show 2 * 1 + 0 = 2 from rfl, hb2]
      exact decode_core (tileFg p) (tileBg p) (p 0 1) hne (by
        rcases hpixbgfg (p 0 1) (by unfold tilePixels; simp) with h | h
        · exact Or.inr h
        · exact Or.inl h)
    · rewrite [show 2 * 2 + 0 = 4 from rfl, hb4]
      exact decode_core (tileFg p) (tileBg p) (p 0 2) hne (by
        rcases hpixbgfg (p 0 2) (by unfold tilePixels; simp) with h | h
        · exact Or.inr h
        · exact Or.inl h)
    · rewrite [show 2 * 0 + 1 = 1 from rfl, hb1]
      exact decode_core (tileFg p) (tileBg p) (p 1 0) hne (by
        rcases hpixbgfg (p 1 0) (by unfold tilePixels; simp) with h | h
        · exact Or.inr h
        · exact Or.inl h)
    · rewrite [show 2 * 1 + 1 = 3 from rfl, hb3]
      exact decode_core (tileFg p) (tileBg p) (p 1 1) hne (by
        rcases hpixbgfg (p 1 1) (by unfold tilePixels; simp) with h | h
        · exact Or.inr h
        · exact Or.inl h)
    · rewrite [show 2 * 2 + 1 = 5 from rfl, hb5]
      rewrite [if_neg (by decide : ¬(false = true))]
      exact hp12.symm
  · have hlast : p 1 2 = tileBg p := by
      rcases hpixbgfg (p 1 2) (by unfold tilePixels; simp) with h | h
      · exact h
      · exact absurd h hp12
    have henc : encodeTile p = (tileCode p (tileBg p), tileFg p, tileBg p) := by
      unfold encodeTile
      rw [if_neg hne1]
      simp only [if_neg hp12]
      exact if_pos trivial
    obtain ⟨hb0, hb1, hb2, hb3, hb4, hb5⟩ := tileCode_testBit p (tileBg p)
    rewrite [henc, decodeTile_mk]
    interval_cases dx <;> interval_cases dy
    · rewrite [show 2 * 0 + 0 = 0 from rfl, hb0]
      exact decode_core (tileBg p) (tileFg p) (p 0 0) (Ne.symm hne)
        (hpixbgfg (p 0 0) (by unfold tilePixels; simp))
    · rewrite [show 2 * 1 + 0 = 2 from rfl, hb2]
      exact decode_core (tileBg p) (tileFg p) (p 0 1) (Ne.symm hne)
        (hpixbgfg (p 0 1) (by unfold tilePixels; simp))
    · rewrite [show 2 * 2 + 0 = 4 from rfl, hb4]
      exact decode_core (tileBg p) (tileFg p) (p 0 2) (Ne.symm hne)
        (hpixbgfg (p 0 2) (by unfold tilePixels; simp))
    · rewrite [show 2 * 0 + 1 = 1 from rfl, hb1]
      exact decode_core (tileBg p) (tileFg p) (p 1 0) (Ne.symm hne)
        (hpixbgfg (p 1 0) (by unfold tilePixels; simp))
    · rewrite [show 2 * 1 + 1 = 3 from rfl, hb3]
      exact decode_core (tileBg p) (tileFg p) (p 1 1) (Ne.symm hne)
        (hpixbgfg (p 1 1) (by unfold tilePixels; simp))
    · rewrite [show 2 * 2 + 1 = 5 from rfl, hb5]
      rewrite [if_neg (by decide : ¬(false = true))]
      exact hlast.symm

/-- Witness for C5 at the concrete two-colour tile, cell (1, 1). -/
theorem C5_two_colour_roundtrip_witness :
    decodeTile (encodeTile exTile) 1 1 = exTile 1 1 :=
  C5_two_colour_roundtrip exTile (by decide) (by decide) 1 1 (by decide) (by decide)

theorem setAt_length {α : Type} (l : List α) (i : ℕ) (v : α) :
    (setAt l i v).length = l.length := by
  induction l generalizing i with
  | nil => rfl
  | cons x xs ih =>
      cases i with
      | zero => rfl
      | succ n => simpa [setAt] using ih n

theorem getD_setAt_eq {α : Type} (l : List α) (i : ℕ) (v d : α) (h : i < l.length) :
    (setAt l i v).getD i d = v := by
  induction l generalizing i with
  | nil => simp at h
  | cons x xs ih =>
      cases i with
      | zero => rfl
      | succ n =>
          simp only [List.length_cons, Nat.succ_lt_succ_iff] at h
          simpa [setAt] using ih n h

theorem getD_setAt_ne {α : Type} (l : List α) (i j : ℕ) (v d : α) (h : i ≠ j) :
    (setAt l i v).getD j d = l.getD j d := by
  induction l generalizing i j with
  | nil => rfl
  | cons x xs ih =>
      cases i with
      | zero =>
          cases j with
          | zero => exact absurd rfl h
          | succ m => rfl
      | succ n =>
          cases j with
          | zero => rfl
          | succ m => simpa [setAt] using ih n m (fun hh => h (by omega))

theorem writeTile_length (buf : ℕ → Colour) (my mx : ℕ) (v : List ℕ) :
    (writeTile buf my mx v).length = v.length := by
  unfold writeTile
  simp [setAt_length]

theorem writeTile_untouched (buf : ℕ → Colour) (my mx : ℕ) (v : List ℕ) (j : ℕ)
    (h0 : j ≠ my * MON_WIDTH * 3 + mx)
    (h1 : j ≠ my * MON_WIDTH * 3 + MON_WIDTH + mx)
    (h2 : j ≠ my * MON_WIDTH * 3 + 2 * MON_WIDTH + mx) :
    (writeTile buf my mx v).getD j 0 = v.getD j 0 := by
  unfold writeTile
  rw [getD_setAt_ne _ _ _ _ _ (fun hh => h2 hh.symm),
    getD_setAt_ne _ _ _ _ _ (fun hh => h1 hh.symm),
    getD_setAt_ne _ _ _ _ _ (fun hh => h0 hh.symm)]

theorem writeTile_values (buf : ℕ → Colour) (my mx : ℕ) (v : List ℕ)
    (hlen : v.length = 38394) (hmy : my < 79) (hmx : mx < 162) :
    (writeTile buf my mx v).getD (my * MON_WIDTH * 3 + mx) 0 =
      (encodeTile (tileAt buf mx my)).1 ∧
    (writeTile buf my mx v).getD (my * MON_WIDTH * 3 + MON_WIDTH + mx) 0 =
      to_hex (encodeTile (tileAt buf mx my)).2.1 ∧
    (writeTile buf my mx v).getD (my * MON_WIDTH * 3 + 2 * MON_WIDTH + mx) 0 =
      to_hex (encodeTile (tileAt buf mx my)).2.2 := by
  have hw : MON_WIDTH = 162 := rfl
  unfold writeTile
  refine ⟨?_, ?_, ?_⟩
  · rw [getD_setAt_ne _ _ _ _ _ (by omega), getD_setAt_ne _ _ _ _ _ (by omega),
      getD_setAt_eq _ _ _ _ (by rw [hlen, hw]; omega)]
  · rw [getD_setAt_ne _ _ _ _ _ (by omega),
      getD_setAt_eq _ _ _ _ (by rw [setAt_length, hlen, hw]; omega)]
  · rw [getD_setAt_eq _ _ _ _ (by rw [setAt_length, setAt_length, hlen, hw]; omega)]

theorem drawCols_length (buf : ℕ → Colour) (my n : ℕ) (v : List ℕ) :
    (drawCols buf my n v).length = v.length := by
  induction n generalizing v with
  | zero => rfl
  | succ m ih => rw [drawCols, writeTile_length, ih]

theorem drawCols_untouched (buf : ℕ → Colour) (my : ℕ) : ∀ n, n ≤ 162 →
    ∀ (v : List ℕ) (j : ℕ), (j < my * 486 ∨ my * 486 + 486 ≤ j) →
    (drawCols buf my n v).getD j 0 = v.getD j 0 := by
  have hw : MON_WIDTH = 162 := rfl
  intro n
  induction n with
  | zero =>
      intro _ v j _
      rfl
  | succ m ih =>
      intro hn v j hj
      rw [drawCols, writeTile_untouched buf my m _ j (by simp only [hw]; omega)
        (by simp only [hw]; omega) (by simp only [hw]; omega)]
      exact ih (by omega) v j hj

theorem drawCols_values (buf : ℕ → Colour) (my : ℕ) : ∀ n, n ≤ 162 →
    ∀ (v : List ℕ) (mx : ℕ), v.length = 38394 → my < 79 → mx < n →
    (drawCols buf my n v).getD (my * MON_WIDTH * 3 + mx) 0 =
      (encodeTile (tileAt buf mx my)).1 ∧
    (drawCols buf my n v).getD (my * MON_WIDTH * 3 + MON_WIDTH + mx) 0 =
      to_hex (encodeTile (tileAt buf mx my)).2.1 ∧
    (drawCols buf my n v).getD (my * MON_WIDTH * 3 + 2 * MON_WIDTH + mx) 0 =
      to_hex (encodeTile (tileAt buf mx my)).2.2 := by
  have hw : MON_WIDTH = 162 := rfl
  intro n
  induction n with
  | zero =>
      intro _ v mx _ _ hmx
      omega
  | succ m ih =>
      intro hn v mx hlen hmy hmx
      rw [drawCols]
      by_cases hcase : mx = m
      · subst hcase
        exact writeTile_values buf my mx _ (by rw [drawCols_length, hlen]) hmy (by omega)
      · have h1 := writeTile_untouched buf my m (drawCols buf my m v)
          (my * MON_WIDTH * 3 + mx) (by simp only [hw]; omega) (by simp only [hw]; omega)
          (by simp only [hw]; omega)
        have h2 := writeTile_untouched buf my m (drawCols buf my m v)
          (my * MON_WIDTH * 3 + MON_WIDTH + mx) (by simp only [hw]; omega)
          (by simp only [hw]; omega) (by simp only [hw]; omega)
        have h3 := writeTile_untouched buf my m (drawCols buf my m v)
          (my * MON_WIDTH * 3 + 2 * MON_WIDTH + mx) (by simp only [hw]; omega)
          (by simp only [hw]; omega) (by simp only [hw]; omega)
        rw [h1, h2, h3]
        exact ih (by omega) v mx hlen hmy (by omega)

theorem drawRows_length (buf : ℕ → Colour) (n : ℕ) (v : List ℕ) :
    (drawRows buf n v).length = v.length := by
  induction n generalizing v with
  | zero => rfl
  | succ m ih => rw [drawRows, drawCols_length, ih]

theorem drawRows_values (buf : ℕ → Colour) : ∀ n, n ≤ 79 →
    ∀ (v : List ℕ) (my mx : ℕ), v.length = 38394 → my < n → mx < 162 →
    (drawRows buf n v).getD (my * MON_WIDTH * 3 + mx) 0 =
      (encodeTile (tileAt buf mx my)).1 ∧
    (drawRows buf n v).getD (my * MON_WIDTH * 3 + MON_WIDTH + mx) 0 =
      to_hex (encodeTile (tileAt buf mx my)).2.1 ∧
    (drawRows buf n v).getD (my * MON_WIDTH * 3 + 2 * MON_WIDTH + mx) 0 =
      to_hex (encodeTile (tileAt buf mx my)).2.2 := by
  have hw : MON_WIDTH = 162 := rfl
  intro n
  induction n with
  | zero =>
      intro _ v my mx _ hmy _
      omega
  | succ m ih =>
      intro hn v my mx hlen hmy hmx
      rw [drawRows]
      by_cases hcase : my = m
      · subst hcase
        exact drawCols_values buf my MON_WIDTH (by rw [hw]) _ mx
          (by rw [drawRows_length, hlen]) (by omega) hmx
      · have hu1 := drawCols_untouched buf m MON_WIDTH (by rw [hw]) (drawRows buf m v)
          (my * MON_WIDTH * 3 + mx) (by simp only [hw]; omega)
        have hu2 := drawCols_untouched buf m MON_WIDTH (by rw [hw]) (drawRows buf m v)
          (my * MON_WIDTH * 3 + MON_WIDTH + mx) (by simp only [hw]; omega)
        have hu3 := drawCols_untouched buf m MON_WIDTH (by rw [hw]) (drawRows buf m v)
          (my * MON_WIDTH * 3 + 2 * MON_WIDTH + mx) (by simp only [hw]; omega)
        rw [hu1, hu2, hu3]
        exact ih (by omega) v my mx hlen (by omega) hmx

/-- C9: for every framebuffer, the encoded frame is exactly
162·79·3 = 38,394 bytes: 79 tile-rows of 162 glyph bytes, then 162
foreground hex-digit bytes, then 162 background hex-digit bytes, the hex
digit of colour c being the byte of "0123456789abcdef" at index c. -/
theorem C9_draw_layout (buf : ℕ → Colour) :
    (draw buf).length = MON_WIDTH * MON_HEIGHT * 3 ∧
    MON_WIDTH * MON_HEIGHT * 3 = 38394 ∧
    (∀ my, my < MON_HEIGHT → ∀ mx, mx < MON_WIDTH →
      (draw buf).getD (my * MON_WIDTH * 3 + mx) 0 =
        (encodeTile (tileAt buf mx my)).1 ∧
      (draw buf).getD (my * MON_WIDTH * 3 + MON_WIDTH + mx) 0 =
        to_hex (encodeTile (tileAt buf mx my)).2.1 ∧
      (draw buf).getD (my * MON_WIDTH * 3 + 2 * MON_WIDTH + mx) 0 =
        to_hex (encodeTile (tileAt buf mx my)).2.2) := by
  have hw : MON_WIDTH = 162 := rfl
  have hh : MON_HEIGHT = 79 := rfl
  refine ⟨?_, rfl, ?_⟩
  · unfold draw
    rw [drawRows_length, List.length_replicate]
  · intro my hmy mx hmx
    unfold draw
    exact drawRows_values buf MON_HEIGHT (by rw [hh]) _ my mx
      (by rw [List.length_replicate, hw, hh]) (by omega) (by omega)

/-- C7 is refuted as stated: deserialising a non-rectangular world (second
row shorter than the first) succeeds and produces a World. -/
theorem C7_counterexample_short_row :
    (deserializeWorld exUpload).toOption.isSome = true := by decide

theorem linear_index_lt {x y z W H D : ℕ} (hx : x < W) (hy : y < H) (hz : z < D) :
    x + y * W + z * H * W < W * H * D := by
  calc x + y * W + z * H * W < (y + 1) * W + z * H * W := by
        have : x + y * W < (y + 1) * W := by
          have h1 : (y + 1) * W = y * W + W := by ring
          omega
        omega
    _ ≤ H * W + z * H * W := by
        have : (y + 1) * W ≤ H * W := Nat.mul_le_mul_right W (by omega)
        omega
    _ = (z + 1) * (H * W) := by ring
    _ ≤ D * (H * W) := Nat.mul_le_mul_right _ (by omega)
    _ = W * H * D := by ring

theorem setRow_ok (W H D : ℕ) :
    ∀ (cs : List Char) (w : World) (x y z : ℕ),
      w.width = W → w.height = H → w.depth = D → w.blocks.length = W * H * D →
      (∀ c ∈ cs, (Block.parse c).isSome = true) →
      x + cs.length ≤ W → y < H → z < D →
      ∃ w2, setRow w y z x cs = .ok w2 ∧ w2.width = W ∧ w2.height = H ∧ w2.depth = D ∧
        w2.blocks.length = W * H * D := by
  intro cs
  induction cs with
  | nil =>
      intro w x y z hW hH hD hlen _ _ _ _
      exact ⟨w, rfl, hW, hH, hD, hlen⟩
  | cons c cs ih =>
      intro w x y z hW hH hD hlen hparse hx hy hz
      obtain ⟨b, hb⟩ := Option.isSome_iff_exists.mp (hparse c (List.mem_cons_self c cs))
      have hidx : x + y * w.width + z * w.height * w.width < w.blocks.length := by
        rw [hW, hH, hlen]
        exact linear_index_lt (by simp at hx; omega) hy hz
      have hset : w.set x y z b =
          some { w with blocks := setAt w.blocks (x + y * w.width + z * w.height * w.width) b } := by
        unfold World.set
        rw [if_pos hidx]
      simp only [setRow, hb, hset]
      exact ih _ (x + 1) y z hW hH hD (by simp [setAt_length]; exact hlen)
        (fun c hc => hparse c (List.mem_cons_of_mem _ hc)) (by simp at hx; omega) hy hz

theorem setPlane_ok (W H D : ℕ) :
    ∀ (rows : List (List Char)) (w : World) (y z : ℕ),
      w.width = W → w.height = H → w.depth = D → w.blocks.length = W * H * D →
      (∀ row ∈ rows, ∀ c ∈ row, (Block.parse c).isSome = true) →
      (∀ row ∈ rows, row.length ≤ W) →
      z + rows.length ≤ D → y < H →
      ∃ w2, setPlane w y z rows = .ok w2 ∧ w2.width = W ∧ w2.height = H ∧ w2.depth = D ∧
        w2.blocks.length = W * H * D := by
  intro rows
  induction rows with
  | nil =>
      intro w y z hW hH hD hlen _ _ _ _
      exact ⟨w, rfl, hW, hH, hD, hlen⟩
  | cons row rows ih =>
      intro w y z hW hH hD hlen hparse hrow hz hy
      obtain ⟨w2, hw2, p1, p2, p3, p4⟩ := setRow_ok W H D row w 0 y z hW hH hD hlen
        (hparse row (List.mem_cons_self row rows))
        (by simpa using hrow row (List.mem_cons_self row rows)) hy (by simp at hz; omega)
      simp only [setPlane, hw2]
      exact ih w2 y (z + 1) p1 p2 p3 p4
        (fun r hr => hparse r (List.mem_cons_of_mem _ hr))
        (fun r hr => hrow r (List.mem_cons_of_mem _ hr)) (by simp at hz; omega) hy

theorem setPlanes_ok (W H D : ℕ) :
    ∀ (planes : List (List (List Char))) (w : World) (y : ℕ),
      w.width = W → w.height = H → w.depth = D → w.blocks.length = W * H * D →
      (∀ plane ∈ planes, ∀ row ∈ plane, ∀ c ∈ row, (Block.parse c).isSome = true) →
      (∀ plane ∈ planes, ∀ row ∈ plane, row.length ≤ W) →
      (∀ plane ∈ planes, plane.length ≤ D) →
      y + planes.length ≤ H →
      ∃ w2, setPlanes w y planes = .ok w2 := by
  intro planes
  induction planes with
  | nil =>
      intro w y hW hH hD hlen _ _ _ _
      exact ⟨w, rfl⟩
  | cons plane planes ih =>
      intro w y hW hH hD hlen hparse hrow hplane hy
      obtain ⟨w2, hw2, p1, p2, p3, p4⟩ := setPlane_ok W H D plane w y 0 hW hH hD hlen
        (hparse plane (List.mem_cons_self plane planes))
        (hrow plane (List.mem_cons_self plane planes))
        (by simpa using hplane plane (List.mem_cons_self plane planes)) (by simp at hy; omega)
      simp only [setPlanes, hw2]
      exact ih w2 (y + 1) p1 p2 p3 p4
        (fun pl hp => hparse pl (List.mem_cons_of_mem _ hp))
        (fun pl hp => hrow pl (List.mem_cons_of_mem _ hp))
        (fun pl hp => hplane pl (List.mem_cons_of_mem _ hp)) (by simp at hy; omega)

/-- C7 (amended): row lengths are never validated.  Any upload whose rows
consist of known block characters, whose rows are no longer than the first
row, and whose planes are no longer than the first plane deserialises
successfully — even when rows are strictly shorter (non-rectangular); the
unwritten cells simply stay Air.  No protocol error rejects a
non-rectangular world. -/
theorem C7_rows_not_validated (plane0 : List (List Char))
    (planes : List (List (List Char))) (row0 : List Char) (rows : List (List Char))
    (hplane0 : plane0 = row0 :: rows)
    (hparse : ∀ plane ∈ plane0 :: planes, ∀ row ∈ plane, ∀ c ∈ row,
      (Block.parse c).isSome = true)
    (hrowlen : ∀ plane ∈ plane0 :: planes, ∀ row ∈ plane, row.length ≤ row0.length)
    (hplanelen : ∀ plane ∈ plane0 :: planes, plane.length ≤ plane0.length) :
    (deserializeWorld (plane0 :: planes)).toOption.isSome = true := by
  subst hplane0
  obtain ⟨w2, hw2⟩ := setPlanes_ok row0.length ((row0 :: rows) :: planes).length
    (row0 :: rows).length ((row0 :: rows) :: planes)
    (World.new row0.length ((row0 :: rows) :: planes).length (row0 :: rows).length) 0
    rfl rfl rfl (by simp [World.new]) hparse hrowlen hplanelen (by omega)
  have hd : deserializeWorld ((row0 :: rows) :: planes) =
      setPlanes (World.new row0.length ((row0 :: rows) :: planes).length
        (row0 :: rows).length) 0 ((row0 :: rows) :: planes) := rfl
  rw [hd, hw2]
  rfl

/-- Witness for the amended C7: a concrete non-rectangular upload (second
row shorter) deserialises successfully. -/
theorem C7_rows_not_validated_witness :
    (deserializeWorld [[['d', 'g'], ['w']]]).toOption.isSome = true :=
  C7_rows_not_validated [['d', 'g'], ['w']] [] ['d', 'g'] [['w']] rfl
    (by decide) (by decide) (by decide)

end C33d
